import Mathlib

/-!
# Verification of the erik.cat blog's post-ingestion and slug logic

Shallow embedding of the pure logic of the repository:

* `slug` — `lib/utils.ts`: the title → URL-identifier derivation, a fixed
  chain of string transformations (`trim`, `toLowerCase`, and five regex
  replaces), embedded stage by stage over `List Char`. Character classes
  (`\s`, `\w`, case mapping) are modelled on the ASCII range, via
  `Char.toNat` code points; titles outside ASCII are stripped by the
  `[^\w\-]` stage in the code and in the model alike.
* `orderPostsByDate` — `lib/utils.ts`: the date comparator used by the
  index page's `sort`; `dayjs` instants are modelled as `Int` timestamps
  (`isSame` = equality, `isAfter` = strictly greater).
* `getPosts` — two versions exist in the repository's history: the one in
  `lib/posts.ts` (`description: data.description ?? ''`) and the one
  bundled alongside `Header.tsx` (`description: markdownToTxt(content).slice(0, 200)`).
  Both are embedded (`mkPostV1` / `mkPostV2`, over `getPostsM`), with the
  `Promise.all` failure behaviour made explicit via `Except`; the external
  `markdownToTxt` renderer is a function parameter.
* `getStaticProps` of `pages/post/[slug].tsx` — the slug-route lookup
  (`find` over title-derived slugs, `notFound` on no match).
-/

namespace ErikCat

/-- Whitespace as matched by JavaScript `trim` / `\s` on the ASCII range:
space (32), tab (9), line feed (10), carriage return (13), vertical tab
(11), form feed (12). -/
def isJsSpace (c : Char) : Bool :=
  c.toNat = 32 || c.toNat = 9 || c.toNat = 10 || c.toNat = 13 || c.toNat = 11 || c.toNat = 12

/-- Word characters as matched by the JavaScript regex class `\w`:
ASCII letters `a`-`z` (97-122) and `A`-`Z` (65-90), digits `0`-`9`
(48-57), and the underscore (95). -/
def isWordChar (c : Char) : Bool :=
  (97 ≤ c.toNat && c.toNat ≤ 122) || (65 ≤ c.toNat && c.toNat ≤ 90) ||
    (48 ≤ c.toNat && c.toNat ≤ 57) || c.toNat = 95

/-- The hyphen character `-` (45), the subject of the last four stages. -/
def isHyphen (c : Char) : Bool :=
  c.toNat = 45

/-- JavaScript `toLowerCase` on the ASCII range: `A`-`Z` shift down by
32, everything else is unchanged. -/
def toLowerJs (c : Char) : Char :=
  if 65 ≤ c.toNat && c.toNat ≤ 90 then Char.ofNat (c.toNat + 32) else c

/-- JavaScript `String.prototype.trim`: drop leading and trailing
whitespace. -/
def trimJs (l : List Char) : List Char :=
  ((l.dropWhile isJsSpace).reverse.dropWhile isJsSpace).reverse

/-- The replace `\s+` → `-` (global): each maximal run of whitespace
becomes a single hyphen, emitted at the run's position. -/
def spacesToHyphens : List Char → List Char
  | [] => []
  | [c] => if isJsSpace c then ['-'] else [c]
  | c :: d :: rest =>
    if isJsSpace c then
      if isJsSpace d then spacesToHyphens (d :: rest)
      else '-' :: spacesToHyphens (d :: rest)
    else c :: spacesToHyphens (d :: rest)

/-- The replace `[^\w\-]+` → `` (global): keep only word characters and
hyphens. -/
def stripNonWord (l : List Char) : List Char :=
  l.filter (fun c => isWordChar c || isHyphen c)

/-- The replace `\-\-+` → `-` (global): each maximal run of two or more
hyphens collapses to a single hyphen (runs of one are left alone, which
coincides with collapsing every maximal hyphen run to one). -/
def collapseHyphens : List Char → List Char
  | [] => []
  | [c] => [c]
  | c :: d :: rest =>
    if isHyphen c && isHyphen d then collapseHyphens (d :: rest)
    else c :: collapseHyphens (d :: rest)

/-- The replace `^-+` → ``: drop leading hyphens. -/
def dropLeadingHyphens (l : List Char) : List Char :=
  l.dropWhile isHyphen

/-- The replace `-+$` → ``: drop trailing hyphens. -/
def dropTrailingHyphens (l : List Char) : List Char :=
  (l.reverse.dropWhile isHyphen).reverse

/-- The character-list form of `slug` from `lib/utils.ts`: trim,
lowercase, whitespace runs → hyphen, strip non-`[\w-]`, collapse hyphen
runs, strip leading and trailing hyphens, in that order. -/
def slugChars (l : List Char) : List Char :=
  dropTrailingHyphens (dropLeadingHyphens (collapseHyphens (stripNonWord
    (spacesToHyphens ((trimJs l).map toLowerJs)))))

/-- The `slug` function of `lib/utils.ts` on `String`. -/
def slug (s : String) : String :=
  ⟨slugChars s.data⟩

/-- The `Post` record of `contracts`: title, author, tags, date,
description, and the compiled body (`serialized`, opaque — kept as the
raw body text). Dates are `Int` timestamps standing for `dayjs`
instants. -/
structure Post where
  title : String
  author : String
  tags : List String
  date : Int
  description : String
  serialized : String
deriving DecidableEq, Repr

/-- Front-matter of one post file as parsed by `gray-matter`: every
field optional. -/
structure FrontMatter where
  title : Option String
  author : Option String
  tags : Option (List String)
  date : Option Int
  description : Option String
deriving DecidableEq, Repr

/-- One successfully read and parsed post file: its front-matter
(`data`) and body (`content`), as destructured from `matter(...)`. -/
structure ParsedFile where
  data : FrontMatter
  content : String
deriving DecidableEq, Repr

/-- The per-file record construction of `getPosts` in `lib/posts.ts`
(the version with `description: data.description ?? ''`): each metadata
field defaults when absent (`?? 'Unknown'`, `?? []`, `?? new Date()` —
`now` is the load time), the description is the front-matter field or
the empty string. -/
def mkPostV1 (now : Int) (f : ParsedFile) : Post :=
  { title := f.data.title.getD "Unknown"
    author := f.data.author.getD "Unknown"
    tags := f.data.tags.getD []
    date := f.data.date.getD now
    description := f.data.description.getD ""
    serialized := f.content }

/-- The per-file record construction of the `getPosts` version bundled
with `Header.tsx` (`description: markdownToTxt(content).slice(0, 200)`):
the description is always the first 200 characters of the body's
plain-text form; `plainText` stands for the external `markdownToTxt`.
-/
def mkPostV2 (plainText : String → String) (now : Int) (f : ParsedFile) : Post :=
  { title := f.data.title.getD "Unknown"
    author := f.data.author.getD "Unknown"
    tags := f.data.tags.getD []
    date := f.data.date.getD now
    description := ⟨(plainText f.content).data.take 200⟩
    serialized := f.content }

/-- The body of `Promise.all(files.map(...))`: build one `Post` per file
read-and-parse result, failing with the first per-file error. -/
def collectPosts (mk : ParsedFile → Post) :
    List (Except String ParsedFile) → Except String (List Post)
  | [] => Except.ok []
  | f :: fs =>
    match f with
    | Except.error e => Except.error e
    | Except.ok pf =>
      match collectPosts mk fs with
      | Except.error e => Except.error e
      | Except.ok ps => Except.ok (mk pf :: ps)

/-- The `getPosts` load: `readdir` may itself fail (`dir` is an
`Except`), then every file is read, parsed and turned into a `Post`;
any failure aborts the whole load. -/
def getPostsM (mk : ParsedFile → Post)
    (dir : Except String (List (Except String ParsedFile))) :
    Except String (List Post) :=
  match dir with
  | Except.error e => Except.error e
  | Except.ok files => collectPosts mk files

/-- The `lib/posts.ts` version of `getPosts`. -/
def getPostsV1 (now : Int) (dir : Except String (List (Except String ParsedFile))) :
    Except String (List Post) :=
  getPostsM (mkPostV1 now) dir

/-- The `markdownToTxt` version of `getPosts`. -/
def getPostsV2 (plainText : String → String) (now : Int)
    (dir : Except String (List (Except String ParsedFile))) :
    Except String (List Post) :=
  getPostsM (mkPostV2 plainText now) dir

/-- The `orderPostsByDate` comparator of `lib/utils.ts`: `0` when the
`dayjs` instants are the same, `-1` when the first is after (later
than) the second, `1` otherwise. -/
def orderPostsByDate (first second : Post) : Int :=
  if first.date = second.date then 0
  else if second.date < first.date then -1 else 1

/-- Insert a post into an already-sorted list, after every element that
compares before-or-equal: the insertion step of a stable comparator
sort. -/
def insertPost (p : Post) : List Post → List Post
  | [] => [p]
  | q :: qs => if orderPostsByDate q p ≤ 0 then q :: insertPost p qs else p :: q :: qs

/-- The `posts.sort(orderPostsByDate)` of `pages/index.tsx`, modelled
as a stable insertion sort: elements are taken in input order and each
lands after everything that compares before-or-equal to it. -/
def sortPosts (l : List Post) : List Post :=
  l.foldl (fun acc p => insertPost p acc) []

/-- The lookup inside `getStaticProps` of `pages/post/[slug].tsx`:
`(await getPosts()).find((post) => slug(post.title) === context.params?.slug)`.
A `none` result is the `notFound: true` branch. -/
def getStaticPropsPost (posts : List Post) (param : String) : Option Post :=
  posts.find? (fun post => slug post.title == param)

example : slug "  Hello, World!  " = "hello-world" := by decide
example : slug "" = "" := by decide
example : slug "a_b" = "a_b" := by decide
example : slug "--a---b--" = "a-b" := by decide
example : slug " A  B_c! " = "a-b_c" := by decide

/-- Characters that can appear in a slug: lowercase ASCII letters
(97-122), digits (48-57), underscore (95), hyphen (45). -/
def isSlugChar (c : Char) : Bool :=
  (97 ≤ c.toNat && c.toNat ≤ 122) || (48 ≤ c.toNat && c.toNat ≤ 57) ||
    c.toNat = 95 || c.toNat = 45

/-- Adjacent characters are never both hyphens. -/
def NoDoubleHyphen (l : List Char) : Prop :=
  l.Chain' (fun a b => isHyphen a = false ∨ isHyphen b = false)

/-- Code points are a faithful key for characters. -/
theorem char_eq_of_toNat_eq {a b : Char} (h : a.toNat = b.toNat) : a = b := by
  have ha := Char.ofNat_toNat a
  have hb := Char.ofNat_toNat b
  rw [← ha, ← hb, h]

theorem toNat_ofNat_valid {n : Nat} (h1 : 97 ≤ n) (h2 : n ≤ 122) :
    (Char.ofNat n).toNat = n := by
  have hv : n.isValidChar := Or.inl (by omega)
  simp [Char.ofNat, hv, Char.ofNatAux, Char.toNat, UInt32.toNat, UInt32.ofNatCore]

/-- The ASCII lowercase map never produces an uppercase letter. -/
theorem toLowerJs_not_upper (c : Char) :
    ¬(65 ≤ (toLowerJs c).toNat ∧ (toLowerJs c).toNat ≤ 90) := by
  unfold toLowerJs
  by_cases h : (65 ≤ c.toNat && c.toNat ≤ 90) = true
  · rw [if_pos h]
    simp only [Bool.and_eq_true, decide_eq_true_eq] at h
    rw [toNat_ofNat_valid (by omega) (by omega)]
    omega
  · rw [if_neg h]
    simp only [Bool.and_eq_true, decide_eq_true_eq, not_and, not_le] at h ⊢
    omega

/-- Induction principle mirroring the two-element lookahead of
`spacesToHyphens` and `collapseHyphens`. -/
theorem recTwoStep {motive : List Char → Prop} (nil : motive [])
    (single : ∀ c, motive [c])
    (cons2 : ∀ c d rest, motive (d :: rest) → motive (c :: d :: rest)) :
    ∀ l, motive l
  | [] => nil
  | [c] => single c
  | c :: d :: rest => cons2 c d rest (recTwoStep nil single cons2 (d :: rest))

theorem mem_dropWhile {p : Char → Bool} {c : Char} :
    ∀ {l : List Char}, c ∈ l.dropWhile p → c ∈ l := by
  intro l h
  induction l with
  | nil => simp at h
  | cons a t ih =>
    rw [List.dropWhile_cons] at h
    by_cases ha : p a = true
    · rw [if_pos ha] at h
      exact List.mem_cons_of_mem a (ih h)
    · rw [if_neg ha] at h
      exact h

theorem mem_dropWhile_of_mem {p : Char → Bool} {c : Char} (hc : p c = false) :
    ∀ {l : List Char}, c ∈ l → c ∈ l.dropWhile p := by
  intro l h
  induction l with
  | nil => simp at h
  | cons a t ih =>
    rw [List.dropWhile_cons]
    by_cases ha : p a = true
    · rw [if_pos ha]
      rcases List.mem_cons.mp h with rfl | hmem
      · rw [hc] at ha
        exact absurd ha (by simp)
      · exact ih hmem
    · rw [if_neg ha]
      exact h

theorem head?_dropWhile_false {p : Char → Bool} {c : Char} :
    ∀ {l : List Char}, (l.dropWhile p).head? = some c → p c = false := by
  intro l h
  induction l with
  | nil => simp at h
  | cons a t ih =>
    rw [List.dropWhile_cons] at h
    by_cases ha : p a = true
    · rw [if_pos ha] at h
      exact ih h
    · rw [if_neg ha] at h
      simp only [List.head?_cons, Option.some.injEq] at h
      subst h
      exact Bool.eq_false_iff.mpr ha

theorem mem_trimJs {c : Char} {l : List Char} (h : c ∈ trimJs l) : c ∈ l := by
  unfold trimJs at h
  rw [List.mem_reverse] at h
  have h2 := mem_dropWhile h
  rw [List.mem_reverse] at h2
  exact mem_dropWhile h2

theorem mem_trimJs_of_mem {c : Char} {l : List Char} (h : c ∈ l)
    (hc : isJsSpace c = false) : c ∈ trimJs l := by
  unfold trimJs
  rw [List.mem_reverse]
  apply mem_dropWhile_of_mem hc
  rw [List.mem_reverse]
  exact mem_dropWhile_of_mem hc h

theorem mem_spacesToHyphens {c : Char} :
    ∀ {l : List Char}, c ∈ spacesToHyphens l → c ∈ l ∨ c = '-' := by
  intro l
  induction l using recTwoStep with
  | nil => intro h; simp [spacesToHyphens] at h
  | single d =>
    intro h
    by_cases hd : isJsSpace d = true
    · simp [spacesToHyphens, hd] at h
      exact Or.inr h
    · simp [spacesToHyphens, hd] at h
      exact Or.inl (by simp [h])
  | cons2 d e rest ih =>
    intro h
    by_cases hd : isJsSpace d = true
    · by_cases he : isJsSpace e = true
      · rw [spacesToHyphens, if_pos hd, if_pos he] at h
        rcases ih h with hm | hc
        · exact Or.inl (List.mem_cons_of_mem d hm)
        · exact Or.inr hc
      · rw [spacesToHyphens, if_pos hd, if_neg he] at h
        rcases List.mem_cons.mp h with rfl | hm
        · exact Or.inr rfl
        · rcases ih hm with hm2 | hc
          · exact Or.inl (List.mem_cons_of_mem d hm2)
          · exact Or.inr hc
    · rw [spacesToHyphens, if_neg hd] at h
      rcases List.mem_cons.mp h with rfl | hm
      · exact Or.inl (List.mem_cons_self _ _)
      · rcases ih hm with hm2 | hc
        · exact Or.inl (List.mem_cons_of_mem d hm2)
        · exact Or.inr hc

theorem mem_spacesToHyphens_of_mem {c : Char} (hc : isJsSpace c = false) :
    ∀ {l : List Char}, c ∈ l → c ∈ spacesToHyphens l := by
  intro l
  induction l using recTwoStep with
  | nil => intro h; simp at h
  | single d =>
    intro h
    rcases List.mem_cons.mp h with rfl | hm
    · simp [spacesToHyphens, hc]
    · simp at hm
  | cons2 d e rest ih =>
    intro h
    by_cases hd : isJsSpace d = true
    · have hm : c ∈ e :: rest := by
        rcases List.mem_cons.mp h with rfl | hm
        · rw [hc] at hd; exact absurd hd (by simp)
        · exact hm
      by_cases he : isJsSpace e = true
      · rw [spacesToHyphens, if_pos hd, if_pos he]
        exact ih hm
      · rw [spacesToHyphens, if_pos hd, if_neg he]
        exact List.mem_cons_of_mem '-' (ih hm)
    · rw [spacesToHyphens, if_neg hd]
      rcases List.mem_cons.mp h with rfl | hm
      · exact List.mem_cons_self _ _
      · exact List.mem_cons_of_mem d (ih hm)

theorem mem_collapseHyphens {c : Char} :
    ∀ {l : List Char}, c ∈ collapseHyphens l → c ∈ l := by
  intro l
  induction l using recTwoStep with
  | nil => intro h; simp [collapseHyphens] at h
  | single d => intro h; simpa [collapseHyphens] using h
  | cons2 d e rest ih =>
    intro h
    by_cases hde : (isHyphen d && isHyphen e) = true
    · rw [collapseHyphens, if_pos hde] at h
      exact List.mem_cons_of_mem d (ih h)
    · rw [collapseHyphens, if_neg hde] at h
      rcases List.mem_cons.mp h with rfl | hm
      · exact List.mem_cons_self _ _
      · exact List.mem_cons_of_mem d (ih hm)

theorem mem_collapseHyphens_of_mem {c : Char} (hc : isHyphen c = false) :
    ∀ {l : List Char}, c ∈ l → c ∈ collapseHyphens l := by
  intro l
  induction l using recTwoStep with
  | nil => intro h; simp at h
  | single d => intro h; simpa [collapseHyphens] using h
  | cons2 d e rest ih =>
    intro h
    by_cases hde : (isHyphen d && isHyphen e) = true
    · rw [collapseHyphens, if_pos hde]
      rcases List.mem_cons.mp h with rfl | hm
      · rw [hc] at hde; simp at hde
      · exact ih hm
    · rw [collapseHyphens, if_neg hde]
      rcases List.mem_cons.mp h with rfl | hm
      · exact List.mem_cons_self _ _
      · exact List.mem_cons_of_mem d (ih hm)

theorem collapseHyphens_head? :
    ∀ l : List Char, (collapseHyphens l).head? = l.head? := by
  intro l
  induction l using recTwoStep with
  | nil => rfl
  | single d => rfl
  | cons2 d e rest ih =>
    by_cases hde : (isHyphen d && isHyphen e) = true
    · rw [collapseHyphens, if_pos hde, ih]
      simp only [Bool.and_eq_true] at hde
      have : e = d :=
        char_eq_of_toNat_eq (by
          have h1 := of_decide_eq_true hde.1
          have h2 := of_decide_eq_true hde.2
          omega)
      rw [List.head?_cons, List.head?_cons, this]
    · rw [collapseHyphens, if_neg hde]
      rw [List.head?_cons, List.head?_cons]

theorem collapseHyphens_noDD : ∀ l : List Char, NoDoubleHyphen (collapseHyphens l) := by
  intro l
  induction l using recTwoStep with
  | nil => exact List.chain'_nil
  | single d => exact List.chain'_singleton d
  | cons2 d e rest ih =>
    by_cases hde : (isHyphen d && isHyphen e) = true
    · rw [NoDoubleHyphen, collapseHyphens, if_pos hde]
      exact ih
    · rw [NoDoubleHyphen, collapseHyphens, if_neg hde]
      rw [List.chain'_cons']
      refine ⟨?_, ih⟩
      intro y hy
      rw [collapseHyphens_head?, List.head?_cons, Option.mem_def, Option.some.injEq] at hy
      subst hy
      rcases Bool.and_eq_false_iff.mp (Bool.eq_false_iff.mpr hde) with h | h
      · exact Or.inl h
      · exact Or.inr h

theorem noDD_dropWhile (p : Char → Bool) {l : List Char} (h : NoDoubleHyphen l) :
    NoDoubleHyphen (l.dropWhile p) := by
  rw [NoDoubleHyphen] at h ⊢
  rw [← List.takeWhile_append_dropWhile p l] at h
  exact List.Chain'.right_of_append h

theorem noDD_reverse {l : List Char} (h : NoDoubleHyphen l) :
    NoDoubleHyphen l.reverse := by
  rw [NoDoubleHyphen, List.chain'_reverse]
  exact List.Chain'.imp (fun a b hab => hab.symm) h

theorem slugChars_noDD (l : List Char) : NoDoubleHyphen (slugChars l) := by
  unfold slugChars dropTrailingHyphens dropLeadingHyphens
  exact noDD_reverse (noDD_dropWhile _ (noDD_reverse (noDD_dropWhile _
    (collapseHyphens_noDD _))))

theorem head?_dropTrailing {p : Char → Bool} {m : List Char} {c : Char}
    (h : ((m.reverse.dropWhile p).reverse).head? = some c) : m.head? = some c := by
  have hdecomp : (m.reverse.dropWhile p).reverse ++ (m.reverse.takeWhile p).reverse = m := by
    rw [← List.reverse_append, List.takeWhile_append_dropWhile, List.reverse_reverse]
  rw [← hdecomp, List.head?_append, h]
  rfl

theorem slugChars_head?_not_hyphen {l : List Char} {c : Char}
    (h : (slugChars l).head? = some c) : isHyphen c = false := by
  unfold slugChars dropTrailingHyphens at h
  have h2 := head?_dropTrailing h
  unfold dropLeadingHyphens at h2
  exact head?_dropWhile_false h2

theorem getLast?_dropTrailing_false {p : Char → Bool} {m : List Char} {c : Char}
    (h : ((m.reverse.dropWhile p).reverse).getLast? = some c) : p c = false := by
  rw [List.getLast?_reverse] at h
  exact head?_dropWhile_false h

theorem slugChars_getLast?_not_hyphen {l : List Char} {c : Char}
    (h : (slugChars l).getLast? = some c) : isHyphen c = false := by
  unfold slugChars dropTrailingHyphens at h
  exact getLast?_dropTrailing_false h

theorem mem_slugChars {c : Char} {l : List Char} (h : c ∈ slugChars l) :
    isSlugChar c = true := by
  unfold slugChars dropTrailingHyphens dropLeadingHyphens at h
  rw [List.mem_reverse] at h
  have h1 := mem_dropWhile h
  rw [List.mem_reverse] at h1
  have h2 := mem_dropWhile h1
  have h3 := mem_collapseHyphens h2
  unfold stripNonWord at h3
  obtain ⟨h4, hword⟩ := List.mem_filter.mp h3
  rcases mem_spacesToHyphens h4 with h5 | rfl
  · obtain ⟨d, _, rfl⟩ := List.mem_map.mp h5
    have hup := toLowerJs_not_upper d
    simp only [isWordChar, isHyphen, Bool.or_eq_true, Bool.and_eq_true,
      decide_eq_true_eq] at hword
    simp only [isSlugChar, Bool.or_eq_true, Bool.and_eq_true, decide_eq_true_eq]
    omega
  · decide

theorem underscore_mem_slugChars {l : List Char} (h : '_' ∈ l) :
    '_' ∈ slugChars l := by
  have h1 : '_' ∈ trimJs l := mem_trimJs_of_mem h (by decide)
  have h2 : '_' ∈ (trimJs l).map toLowerJs :=
    List.mem_map.mpr ⟨'_', h1, by decide⟩
  have h3 : '_' ∈ spacesToHyphens ((trimJs l).map toLowerJs) :=
    mem_spacesToHyphens_of_mem (by decide) h2
  have h4 : '_' ∈ stripNonWord (spacesToHyphens ((trimJs l).map toLowerJs)) :=
    List.mem_filter.mpr ⟨h3, by decide⟩
  have h5 : '_' ∈ collapseHyphens (stripNonWord (spacesToHyphens ((trimJs l).map toLowerJs))) :=
    mem_collapseHyphens_of_mem (by decide) h4
  have h6 : '_' ∈ dropLeadingHyphens (collapseHyphens (stripNonWord
      (spacesToHyphens ((trimJs l).map toLowerJs)))) :=
    mem_dropWhile_of_mem (by decide) h5
  unfold slugChars dropTrailingHyphens
  rw [List.mem_reverse]
  apply mem_dropWhile_of_mem (by decide)
  rw [List.mem_reverse]
  exact h6

theorem dropWhile_eq_self_of_head {p : Char → Bool} {l : List Char}
    (h : ∀ c, l.head? = some c → p c = false) : l.dropWhile p = l := by
  cases l with
  | nil => rfl
  | cons a t =>
    have ha := h a rfl
    rw [List.dropWhile_cons, ha]
    simp

theorem dropWhile_eq_self_of_forall {p : Char → Bool} {l : List Char}
    (h : ∀ c ∈ l, p c = false) : l.dropWhile p = l := by
  cases l with
  | nil => rfl
  | cons a t =>
    have ha := h a (List.mem_cons_self _ _)
    rw [List.dropWhile_cons, ha]
    simp

theorem trimJs_eq_self {l : List Char} (h : ∀ c ∈ l, isJsSpace c = false) :
    trimJs l = l := by
  unfold trimJs
  rw [dropWhile_eq_self_of_forall h]
  rw [dropWhile_eq_self_of_forall (fun c hc => h c (List.mem_reverse.mp hc))]
  exact List.reverse_reverse l

theorem spacesToHyphens_eq_self {l : List Char} (h : ∀ c ∈ l, isJsSpace c = false) :
    spacesToHyphens l = l := by
  induction l using recTwoStep with
  | nil => rfl
  | single d =>
    have hd := h d (List.mem_cons_self _ _)
    rw [spacesToHyphens, if_neg (by rw [hd]; simp)]
  | cons2 d e rest ih =>
    have hd := h d (List.mem_cons_self _ _)
    have ht : ∀ c ∈ e :: rest, isJsSpace c = false :=
      fun c hc => h c (List.mem_cons_of_mem d hc)
    rw [spacesToHyphens, if_neg (by rw [hd]; simp), ih ht]

theorem collapseHyphens_eq_self {l : List Char} (h : NoDoubleHyphen l) :
    collapseHyphens l = l := by
  induction l using recTwoStep with
  | nil => rfl
  | single d => rfl
  | cons2 d e rest ih =>
    rw [NoDoubleHyphen, List.chain'_cons'] at h
    obtain ⟨hde, ht⟩ := h
    have hde2 := hde e rfl
    have hcond : ¬(isHyphen d && isHyphen e) = true := by
      rcases hde2 with h1 | h1 <;> simp [h1]
    rw [collapseHyphens, if_neg hcond, ih ht]

theorem dropTrailing_eq_self {p : Char → Bool} {l : List Char}
    (h : ∀ c, l.getLast? = some c → p c = false) :
    (l.reverse.dropWhile p).reverse = l := by
  have h2 : ∀ c, l.reverse.head? = some c → p c = false := by
    intro c hc
    rw [List.head?_reverse] at hc
    exact h c hc
  rw [dropWhile_eq_self_of_head h2, List.reverse_reverse]

theorem slugChars_idem (l : List Char) : slugChars (slugChars l) = slugChars l := by
  have hgood : ∀ c ∈ slugChars l, isSlugChar c = true := fun c hc => mem_slugChars hc
  have hnospace : ∀ c ∈ slugChars l, isJsSpace c = false := by
    intro c hc
    have hg := hgood c hc
    simp only [isSlugChar, Bool.or_eq_true, Bool.and_eq_true, decide_eq_true_eq] at hg
    rw [Bool.eq_false_iff]
    simp only [isJsSpace, ne_eq, Bool.or_eq_true, decide_eq_true_eq]
    omega
  have hlower : ∀ c ∈ slugChars l, toLowerJs c = c := by
    intro c hc
    have hg := hgood c hc
    simp only [isSlugChar, Bool.or_eq_true, Bool.and_eq_true, decide_eq_true_eq] at hg
    unfold toLowerJs
    rw [if_neg]
    simp only [Bool.and_eq_true, decide_eq_true_eq, not_and, not_le]
    omega
  have hword : ∀ c ∈ slugChars l, (isWordChar c || isHyphen c) = true := by
    intro c hc
    have hg := hgood c hc
    simp only [isSlugChar, Bool.or_eq_true, Bool.and_eq_true, decide_eq_true_eq] at hg
    simp only [isWordChar, isHyphen, Bool.or_eq_true, Bool.and_eq_true, decide_eq_true_eq]
    omega
  have e1 : trimJs (slugChars l) = slugChars l := trimJs_eq_self hnospace
  have e2 : (slugChars l).map toLowerJs = slugChars l := by
    rw [List.map_congr_left hlower, List.map_id']
  have e3 : spacesToHyphens (slugChars l) = slugChars l := spacesToHyphens_eq_self hnospace
  have e4 : stripNonWord (slugChars l) = slugChars l := List.filter_eq_self.mpr hword
  have e5 : collapseHyphens (slugChars l) = slugChars l :=
    collapseHyphens_eq_self (slugChars_noDD l)
  have e6 : dropLeadingHyphens (slugChars l) = slugChars l :=
    dropWhile_eq_self_of_head (fun c hc => slugChars_head?_not_hyphen hc)
  have e7 : dropTrailingHyphens (slugChars l) = slugChars l :=
    dropTrailing_eq_self (fun c hc => slugChars_getLast?_not_hyphen hc)
  show dropTrailingHyphens (dropLeadingHyphens (collapseHyphens (stripNonWord
    (spacesToHyphens ((trimJs (slugChars l)).map toLowerJs))))) = slugChars l
  rw [e1, e2, e3, e4, e5, e6, e7]

theorem collectPosts_map_ok (mk : ParsedFile → Post) :
    ∀ files : List ParsedFile,
      collectPosts mk (files.map Except.ok) = Except.ok (files.map mk)
  | [] => rfl
  | f :: fs => by
    simp only [List.map_cons, collectPosts, collectPosts_map_ok mk fs]

theorem collectPosts_error (mk : ParsedFile → Post) :
    ∀ files : List (Except String ParsedFile),
      (∃ e, Except.error e ∈ files) →
      ∃ e, Except.error e ∈ files ∧ collectPosts mk files = Except.error e := by
  intro files
  induction files with
  | nil =>
    intro h
    obtain ⟨e, he⟩ := h
    simp at he
  | cons f fs ih =>
    intro h
    match f with
    | Except.error e => exact ⟨e, List.mem_cons_self _ _, rfl⟩
    | Except.ok pf =>
      obtain ⟨e, he⟩ := h
      have he2 : Except.error e ∈ fs := by
        rcases List.mem_cons.mp he with h1 | h1
        · exact absurd h1 (by simp)
        · exact h1
      obtain ⟨e2, he3, hc⟩ := ih ⟨e, he2⟩
      refine ⟨e2, List.mem_cons_of_mem _ he3, ?_⟩
      simp only [collectPosts]
      rw [hc]

theorem orderPostsByDate_eq_neg_one {p q : Post} (h : q.date < p.date) :
    orderPostsByDate p q = -1 := by
  unfold orderPostsByDate
  rw [if_neg (by omega), if_pos h]

theorem orderPostsByDate_eq_one {p q : Post} (h : p.date < q.date) :
    orderPostsByDate p q = 1 := by
  unfold orderPostsByDate
  rw [if_neg (by omega), if_neg (by omega)]

theorem orderPostsByDate_eq_zero {p q : Post} (h : p.date = q.date) :
    orderPostsByDate p q = 0 := by
  unfold orderPostsByDate
  rw [if_pos h]

theorem find?_append_first {p : Post → Bool} :
    ∀ (pre : List Post) (x : Post) (suf : List Post),
      (∀ q ∈ pre, p q = false) → p x = true →
      List.find? p (pre ++ x :: suf) = some x := by
  intro pre x suf
  induction pre with
  | nil =>
    intro _ hx
    rw [List.nil_append]
    simp [List.find?_cons, hx]
  | cons q pre2 ih =>
    intro hpre hx
    have hq := hpre q (List.mem_cons_self _ _)
    rw [List.cons_append, List.find?_cons, hq]
    exact ih (fun r hr => hpre r (List.mem_cons_of_mem q hr)) hx

/-! ## Claims -/

/-- C8: the slug of "  Hello, World!  " is "hello-world", and the slug
of the empty string is the empty string. -/
theorem slug_concrete_examples :
    slug "  Hello, World!  " = "hello-world" ∧ slug "" = "" := by
  constructor <;> decide

/-- C1 as stated is false on the code: the strip stage removes
characters outside the regex class `[\w\-]`, and `\w` keeps the
underscore, so a slug can contain an underscore — witnessed by the
input "a_b". -/
theorem slug_underscore_not_stripped_cex : '_' ∈ (slug "a_b").data := by
  decide

/-- C1 amended: the strip stage removes every character that is not a
word character (alphanumeric or underscore) or a hyphen, so the slug
never contains whitespace or punctuation other than hyphens and
underscores: every output character is a lowercase letter, digit,
underscore, or hyphen. -/
theorem slug_strips_non_word (s : String) :
    ∀ c ∈ (slug s).data, isSlugChar c = true := by
  intro c hc
  exact mem_slugChars hc

theorem slug_strips_non_word_witness : isSlugChar 'a' = true :=
  slug_strips_non_word "a!" 'a' (by decide)

/-- C9: every character of a slug is a lowercase ASCII letter (code
97-122), a decimal digit (48-57), an underscore, or a hyphen — never
whitespace or an uppercase letter — and underscores occurring in the
input are preserved in the slug rather than stripped. -/
theorem slug_char_classes (s : String) :
    (∀ c ∈ (slug s).data,
      (97 ≤ c.toNat ∧ c.toNat ≤ 122) ∨ (48 ≤ c.toNat ∧ c.toNat ≤ 57) ∨
        c = '_' ∨ c = '-') ∧
    ('_' ∈ s.data → '_' ∈ (slug s).data) := by
  constructor
  · intro c hc
    have hg := mem_slugChars hc
    simp only [isSlugChar, Bool.or_eq_true, Bool.and_eq_true, decide_eq_true_eq] at hg
    rcases hg with ((h | h) | h) | h
    · exact Or.inl h
    · exact Or.inr (Or.inl h)
    · exact Or.inr (Or.inr (Or.inl (char_eq_of_toNat_eq (by rw [h]; decide))))
    · exact Or.inr (Or.inr (Or.inr (char_eq_of_toNat_eq (by rw [h]; decide))))
  · exact underscore_mem_slugChars

theorem slug_char_classes_witness :
    ((97 ≤ 'x'.toNat ∧ 'x'.toNat ≤ 122) ∨ (48 ≤ 'x'.toNat ∧ 'x'.toNat ≤ 57) ∨
      'x' = '_' ∨ 'x' = '-') ∧
    '_' ∈ (slug "x_y").data :=
  ⟨(slug_char_classes "x_y").1 'x' (by decide), (slug_char_classes "x_y").2 (by decide)⟩

/-- C6: a slug has no leading hyphen, no trailing hyphen, and no two
consecutive hyphens anywhere. -/
theorem slug_hyphens_normalized (s : String) :
    (∀ c, (slug s).data.head? = some c → c ≠ '-') ∧
    (∀ c, (slug s).data.getLast? = some c → c ≠ '-') ∧
    (slug s).data.Chain' (fun a b => a ≠ '-' ∨ b ≠ '-') := by
  refine ⟨?_, ?_, ?_⟩
  · intro c hc heq
    subst heq
    exact absurd (slugChars_head?_not_hyphen hc) (by decide)
  · intro c hc heq
    subst heq
    exact absurd (slugChars_getLast?_not_hyphen hc) (by decide)
  · have h := slugChars_noDD s.data
    rw [NoDoubleHyphen] at h
    apply List.Chain'.imp ?_ h
    intro a b hab
    rcases hab with h1 | h1
    · exact Or.inl (fun he => absurd (he ▸ h1) (by decide))
    · exact Or.inr (fun he => absurd (he ▸ h1) (by decide))

theorem slug_hyphens_normalized_witness : 'a' ≠ '-' :=
  (slug_hyphens_normalized "a-b").1 'a' (by decide)

/-- C5: slug derivation is idempotent — applying it twice yields the
same result as applying it once, for every input string. -/
theorem slug_idempotent (s : String) : slug (slug s) = slug s := by
  show (⟨slugChars (slugChars s.data)⟩ : String) = ⟨slugChars s.data⟩
  rw [slugChars_idem]

/-- C2 as stated is false for the lib/posts.ts getPosts (the version
its own source anchor points at): with no description front-matter and
a 201-character plain-text body, that loader produces the empty string
as description, not a 200-character cut. -/
theorem getPostsV1_no_derivation_cex :
    getPostsV1 0 (Except.ok [Except.ok ⟨⟨none, none, none, none, none⟩,
        ⟨List.replicate 201 'a'⟩⟩]) =
      Except.ok [mkPostV1 0 ⟨⟨none, none, none, none, none⟩, ⟨List.replicate 201 'a'⟩⟩] ∧
    (mkPostV1 0 ⟨⟨none, none, none, none, none⟩, ⟨List.replicate 201 'a'⟩⟩).description = "" ∧
    (String.mk (List.replicate 201 'a')).length = 201 := by
  refine ⟨rfl, rfl, by rw [String.length_mk, List.length_replicate]⟩

/-- C2 amended: it is the markdownToTxt version of getPosts (the one
bundled with Header.tsx) that derives the description; for every post
file whose front-matter has no description and whose body's plain-text
form exceeds 200 characters, that loader produces a description that is
exactly the first 200 characters of the plain text — a hard character
cut. (The lib/posts.ts version instead substitutes the empty string and
never derives from the body.) -/
theorem getPostsV2_derived_description (plainText : String → String) (now : Int)
    (files : List ParsedFile) (f : ParsedFile)
    (_hdesc : f.data.description = none)
    (hlen : 200 < (plainText f.content).length) :
    getPostsV2 plainText now (Except.ok (files.map Except.ok)) =
      Except.ok (files.map (mkPostV2 plainText now)) ∧
    (mkPostV2 plainText now f).description = ⟨(plainText f.content).data.take 200⟩ ∧
    (mkPostV2 plainText now f).description.length = 200 := by
  refine ⟨collectPosts_map_ok _ files, rfl, ?_⟩
  show (String.mk ((plainText f.content).data.take 200)).length = 200
  rw [String.length_mk, List.length_take]
  have hdata : (plainText f.content).length = (plainText f.content).data.length := rfl
  omega

theorem getPostsV2_derived_description_witness :
    (mkPostV2 id 0 ⟨⟨none, none, none, none, none⟩,
      ⟨List.replicate 201 'a'⟩⟩).description.length = 200 :=
  (getPostsV2_derived_description id 0 []
    ⟨⟨none, none, none, none, none⟩, ⟨List.replicate 201 'a'⟩⟩ rfl
    (by show 200 < (String.mk (List.replicate 201 'a')).length
        rw [String.length_mk, List.length_replicate]
        omega)).2.2

/-- C3 as stated is false for the markdownToTxt version of getPosts: an
explicit front-matter description "custom" is ignored and the
description is derived from the body even though the field is present.
-/
theorem getPostsV2_ignores_description_cex :
    (mkPostV2 id 0 ⟨⟨none, none, none, none, some "custom"⟩, "body"⟩).description = "body" ∧
    (mkPostV2 id 0 ⟨⟨none, none, none, none, some "custom"⟩, "body"⟩).description ≠ "custom" := by
  constructor <;> decide

/-- C3 amended: it is the lib/posts.ts version of getPosts that honours
the front-matter description: the loader maps every file to its Post,
a file with an explicit description yields exactly that value, and a
file without one yields the empty string (derivation from the body is
never used in this version). -/
theorem getPostsV1_explicit_description (now : Int) (files : List ParsedFile)
    (f : ParsedFile) (d : String) (hd : f.data.description = some d) :
    getPostsV1 now (Except.ok (files.map Except.ok)) =
      Except.ok (files.map (mkPostV1 now)) ∧
    (mkPostV1 now f).description = d ∧
    (∀ g : ParsedFile, g.data.description = none → (mkPostV1 now g).description = "") := by
  refine ⟨collectPosts_map_ok _ files, ?_, ?_⟩
  · show f.data.description.getD "" = d
    rw [hd]
    rfl
  · intro g hg
    show g.data.description.getD "" = ""
    rw [hg]
    rfl

theorem getPostsV1_explicit_description_witness :
    (mkPostV1 0 ⟨⟨none, none, none, none, some "from front-matter"⟩,
      "body"⟩).description = "from front-matter" :=
  (getPostsV1_explicit_description 0 []
    ⟨⟨none, none, none, none, some "from front-matter"⟩, "body"⟩
    "from front-matter" rfl).2.1

/-- C7: if any file of the directory read fails (unreadable or
malformed front-matter), the whole load fails with one of the
underlying per-file errors and no Post list is produced; a failing
directory read propagates its error unchanged. -/
theorem getPosts_error_propagation (mk : ParsedFile → Post)
    (files : List (Except String ParsedFile)) (e : String)
    (h : Except.error e ∈ files) :
    (∃ e2, Except.error e2 ∈ files ∧
      getPostsM mk (Except.ok files) = Except.error e2) ∧
    (∀ posts, getPostsM mk (Except.ok files) ≠ Except.ok posts) ∧
    (∀ e3, getPostsM mk (Except.error e3) = Except.error e3) := by
  obtain ⟨e2, hm, hc⟩ := collectPosts_error mk files ⟨e, h⟩
  refine ⟨⟨e2, hm, hc⟩, ?_, fun e3 => rfl⟩
  intro posts hok
  rw [show getPostsM mk (Except.ok files) = collectPosts mk files from rfl, hc] at hok
  exact absurd hok (by simp)

theorem getPosts_error_propagation_witness :
    ∃ e2, Except.error e2 ∈
        [Except.error "EACCES", Except.ok (⟨⟨none, none, none, none, none⟩, ""⟩ : ParsedFile)] ∧
      getPostsM (mkPostV1 0) (Except.ok [Except.error "EACCES",
        Except.ok (⟨⟨none, none, none, none, none⟩, ""⟩ : ParsedFile)]) = Except.error e2 :=
  (getPosts_error_propagation (mkPostV1 0)
    [Except.error "EACCES", Except.ok (⟨⟨none, none, none, none, none⟩, ""⟩ : ParsedFile)]
    "EACCES" (List.mem_cons_self _ _)).1

/-- C4: the comparator returns -1 when the first post's date is
strictly later, 1 when strictly earlier, 0 when equal; consequently
sorting any permutation of three posts with dates D1 > D2 > D3 yields
the order D1, D2, D3. -/
theorem orderPostsByDate_spec (p1 p2 p3 : Post) (l : List Post)
    (h12 : p2.date < p1.date) (h23 : p3.date < p2.date)
    (hperm : l.Perm [p1, p2, p3]) :
    (∀ p q : Post, (q.date < p.date → orderPostsByDate p q = -1) ∧
      (p.date < q.date → orderPostsByDate p q = 1) ∧
      (p.date = q.date → orderPostsByDate p q = 0)) ∧
    sortPosts l = [p1, p2, p3] := by
  refine ⟨fun p q => ⟨orderPostsByDate_eq_neg_one, orderPostsByDate_eq_one,
    orderPostsByDate_eq_zero⟩, ?_⟩
  have c12 : orderPostsByDate p1 p2 = -1 := orderPostsByDate_eq_neg_one h12
  have c21 : orderPostsByDate p2 p1 = 1 := orderPostsByDate_eq_one h12
  have c13 : orderPostsByDate p1 p3 = -1 := orderPostsByDate_eq_neg_one (by omega)
  have c31 : orderPostsByDate p3 p1 = 1 := orderPostsByDate_eq_one (by omega)
  have c23 : orderPostsByDate p2 p3 = -1 := orderPostsByDate_eq_neg_one h23
  have c32 : orderPostsByDate p3 p2 = 1 := orderPostsByDate_eq_one h23
  have hmem := List.mem_permutations.mpr hperm
  have hperms : [p1, p2, p3].permutations =
      [[p1, p2, p3], [p2, p1, p3], [p3, p2, p1], [p2, p3, p1],
        [p3, p1, p2], [p1, p3, p2]] := by
    simp [List.permutations, List.permutationsAux, List.permutationsAux.rec]
  rw [hperms] at hmem
  simp only [List.mem_cons, List.not_mem_nil, or_false] at hmem
  rcases hmem with rfl | rfl | rfl | rfl | rfl | rfl <;>
    simp [sortPosts, insertPost, c12, c13, c21, c23, c31, c32]

theorem orderPostsByDate_spec_witness :
    sortPosts [(⟨"c", "", [], 1, "", ""⟩ : Post), ⟨"a", "", [], 3, "", ""⟩,
        ⟨"b", "", [], 2, "", ""⟩] =
      [(⟨"a", "", [], 3, "", ""⟩ : Post), ⟨"b", "", [], 2, "", ""⟩,
        ⟨"c", "", [], 1, "", ""⟩] :=
  (orderPostsByDate_spec ⟨"a", "", [], 3, "", ""⟩ ⟨"b", "", [], 2, "", ""⟩
    ⟨"c", "", [], 1, "", ""⟩
    [⟨"c", "", [], 1, "", ""⟩, ⟨"a", "", [], 3, "", ""⟩, ⟨"b", "", [], 2, "", ""⟩]
    (by decide) (by decide) (by decide)).2

/-- C10: the single-post page's lookup returns none (the notFound
branch) exactly when no loaded post's title-derived slug equals the
requested parameter; otherwise it returns the first post, in list
order, whose title-derived slug matches. -/
theorem getStaticPropsPost_spec (posts : List Post) (param : String) :
    (getStaticPropsPost posts param = none ↔ ∀ p ∈ posts, slug p.title ≠ param) ∧
    (∀ pre x suf, posts = pre ++ x :: suf →
      (∀ q ∈ pre, slug q.title ≠ param) → slug x.title = param →
      getStaticPropsPost posts param = some x) ∧
    (∀ x, getStaticPropsPost posts param = some x → x ∈ posts ∧ slug x.title = param) := by
  refine ⟨?_, ?_, ?_⟩
  · rw [getStaticPropsPost, List.find?_eq_none]
    constructor
    · intro h p hp heq
      exact h p hp (by simp [heq])
    · intro h p hp hbeq
      exact h p hp (by simpa using hbeq)
  · intro pre x suf hsplit hpre hx
    subst hsplit
    rw [getStaticPropsPost]
    apply find?_append_first pre x suf
    · intro q hq
      have := hpre q hq
      simpa using this
    · simp [hx]
  · intro x hx
    refine ⟨List.mem_of_find?_eq_some hx, ?_⟩
    have := List.find?_some hx
    simpa using this

theorem getStaticPropsPost_spec_witness :
    getStaticPropsPost [(⟨"Hello World", "", [], 0, "", ""⟩ : Post)] "hello-world" =
      some (⟨"Hello World", "", [], 0, "", ""⟩ : Post) :=
  (getStaticPropsPost_spec [(⟨"Hello World", "", [], 0, "", ""⟩ : Post)]
    "hello-world").2.1 [] ⟨"Hello World", "", [], 0, "", ""⟩ [] rfl
    (by simp) (by decide)

end ErikCat
